import Mathlib

/-!
Shallow embedding of `src/processing.py`: the byte cursor `Reader`, the codec
dispatcher `decompress`, the pixel decoders `create_image` and `pixel_size`,
the tiled block reader of `process_sc`, and the container parse itself.

Bytes are modelled as `Nat` values.  The external collaborators — the MD5
digest primitive, the two decompression codecs, and the PIL `RGBA;4B`
unpacker used for pixel format 3 — are out of scope per the specification and
appear as function parameters; everything else is translated from the source.
-/

namespace Sc

/-- Little-endian interpretation of a byte list, as `int.from_bytes(bs, "little")`. -/
def fromLE : List Nat → Nat
  | [] => 0
  | b :: bs => b + 256 * fromLE bs

/-- Big-endian interpretation of a byte list, as `int.from_bytes(bs, "big")`. -/
def fromBE (bs : List Nat) : Nat :=
  bs.foldl (fun acc b => 256 * acc + b) 0

/-- State of the `Reader` subclass of `io.BytesIO` (source lines 7-30): the
backing buffer, the current stream position, and the `_bytes_left` counter.
The counter is an `Int` because the Python integer can go negative. -/
structure Reader where
  data : List Nat
  pos : Nat
  bytesLeft : Int

/-- Constructor `Reader(stream)`: position 0 and `_bytes_left = len(stream)`. -/
def Reader.ofBytes (stream : List Nat) : Reader :=
  ⟨stream, 0, (stream.length : Int)⟩

/-- Method `Reader.read(size)` (lines 15-17): decrement `_bytes_left` by
`size`, then return what `io.BytesIO.read(size)` returns — at most `size`
bytes from the current position (all remaining bytes when `size` is
negative), with no error on a short read. -/
def Reader.read (r : Reader) (size : Int) : List Nat × Reader :=
  let out := if size < 0 then r.data.drop r.pos else (r.data.drop r.pos).take size.toNat
  (out, ⟨r.data, r.pos + out.length, r.bytesLeft - size⟩)

/-- Method `Reader.__len__` (lines 12-13): `0 if _bytes_left < 0 else _bytes_left`. -/
def Reader.len (r : Reader) : Nat :=
  if r.bytesLeft < 0 then 0 else r.bytesLeft.toNat

/-- Method `Reader.read_byte` (lines 19-20); on a short read `int.from_bytes`
of the empty byte string is 0. -/
def Reader.read_byte (r : Reader) : Nat × Reader :=
  let (bs, r) := r.read 1
  (fromLE bs, r)

/-- Method `Reader.read_uint16` (lines 22-23). -/
def Reader.read_uint16 (r : Reader) : Nat × Reader :=
  let (bs, r) := r.read 2
  (fromLE bs, r)

/-- Method `Reader.read_uint32` (lines 25-26). -/
def Reader.read_uint32 (r : Reader) : Nat × Reader :=
  let (bs, r) := r.read 4
  (fromLE bs, r)

/-- ASCII bytes of the dictionary-codec marker `b"SCLZ"`. -/
def sclzMarker : List Nat := [83, 67, 76, 90]

/-- Function `decompress` (lines 33-43), parameterised by the two black-box
codecs: `lzham` takes the compressed stream, the uncompressed size and the
dictionary-size exponent; `lzma` is the streaming general-purpose decoder. -/
def decompress (lzham : List Nat → Nat → Nat → List Nat)
    (lzma : List Nat → List Nat) (data : List Nat) : List Nat :=
  if data.take 4 = sclzMarker then
    let dict_size := fromBE ((data.drop 4).take 1)
    let uncompressed_size := fromLE ((data.drop 5).take 4)
    lzham (data.drop 9) uncompressed_size dict_size
  else
    lzma (data.take 9 ++ List.replicate 4 0 ++ data.drop 9)

/-- Error outcomes of the parse, mirroring the exceptions the source can
raise: the digest mismatch (line 103), the unknown pixel format (lines 84 and
95), the PIL `ValueError` when `Image.frombytes` receives too few bytes, and
the `ValueError` from `bytearray(n)` with negative `n` (line 125 when a tiled
chunk declares `payloadSize < 5`). -/
inductive Err where
  | corrupted : Err
  | unknownSubType : Nat → Err
  | notEnoughImageData : Err
  | negativeBufferSize : Err
deriving DecidableEq

/-- Target color models of the decoded images. -/
inductive ColorModel where
  | RGBA : ColorModel
  | RGB : ColorModel
  | LA : ColorModel
  | L : ColorModel
deriving DecidableEq

/-- Decoded image: dimensions, target color model, and the channel values
that the pixel access `ps[w, h]` yields at each coordinate pair `(w, h)`. -/
structure DecodedImage where
  width : Nat
  height : Nat
  model : ColorModel
  px : Nat × Nat → List Nat

/-- Shape of the external PIL `RGBA;4B` raw decoder used for pixel format 3:
given width, height and the raw bytes it yields the pixel function. -/
abbrev PilFn := Nat → Nat → List Nat → (Nat × Nat) → List Nat

/-- Function `create_image` (lines 46-84), parameterised by the external PIL
unpacker for format 3.  Formats 0, 1, 3, 6 and 10 go through
`Image.frombytes`, which raises when fewer bytes than one pixel row-major
plane are supplied; formats 2 and 4 fill a fresh image pixel by pixel and
read missing bytes as zero, exactly as the Python slicing does. -/
def create_image (pil : PilFn) (width height : Nat) (pixels : List Nat)
    (sub_type : Nat) : Except Err DecodedImage :=
  if sub_type = 0 ∨ sub_type = 1 then
    if pixels.length < width * height * 4 then Except.error Err.notEnoughImageData
    else Except.ok ⟨width, height, ColorModel.RGBA, fun wh =>
      let i := (wh.1 + wh.2 * width) * 4
      [pixels.getD i 0, pixels.getD (i + 1) 0, pixels.getD (i + 2) 0,
        pixels.getD (i + 3) 0]⟩
  else if sub_type = 2 then
    Except.ok ⟨width, height, ColorModel.RGBA, fun wh =>
      let p := fromLE ((pixels.drop ((wh.1 + wh.2 * width) * 2)).take 2)
      [((p >>> 12) &&& 15) <<< 4, ((p >>> 8) &&& 15) <<< 4,
        ((p >>> 4) &&& 15) <<< 4, ((p >>> 0) &&& 15) <<< 4]⟩
  else if sub_type = 3 then
    if pixels.length < width * height * 2 then Except.error Err.notEnoughImageData
    else Except.ok ⟨width, height, ColorModel.RGBA, pil width height pixels⟩
  else if sub_type = 4 then
    Except.ok ⟨width, height, ColorModel.RGB, fun wh =>
      let p := fromLE ((pixels.drop ((wh.1 + wh.2 * width) * 2)).take 2)
      [((p >>> 11) &&& 31) <<< 3, ((p >>> 5) &&& 63) <<< 2, (p &&& 31) <<< 3]⟩
  else if sub_type = 6 then
    if pixels.length < width * height * 2 then Except.error Err.notEnoughImageData
    else Except.ok ⟨width, height, ColorModel.LA, fun wh =>
      let i := (wh.1 + wh.2 * width) * 2
      [pixels.getD i 0, pixels.getD (i + 1) 0]⟩
  else if sub_type = 10 then
    if pixels.length < width * height then Except.error Err.notEnoughImageData
    else Except.ok ⟨width, height, ColorModel.L, fun wh =>
      [pixels.getD (wh.1 + wh.2 * width) 0]⟩
  else Except.error (Err.unknownSubType sub_type)

/-- Function `pixel_size` (lines 87-95). -/
def pixel_size (sub_type : Nat) : Except Err Nat :=
  if sub_type = 0 ∨ sub_type = 1 then Except.ok 4
  else if sub_type = 2 ∨ sub_type = 3 ∨ sub_type = 4 ∨ sub_type = 6 then Except.ok 2
  else if sub_type = 10 then Except.ok 1
  else Except.error (Err.unknownSubType sub_type)

/-- Fuel-driven helper computing Python `range(start, stop, step)`; the fuel
`stop - start` is sufficient whenever the step is positive. -/
def rangeStepAux : Nat → Nat → Nat → Nat → List Nat
  | 0, _, _, _ => []
  | fuel + 1, start, stop, step =>
    if start < stop then start :: rangeStepAux fuel (start + step) stop step
    else []

/-- Semantics of Python `range(start, stop, step)` for a positive step. -/
def rangeStep (start stop step : Nat) : List Nat :=
  rangeStepAux (stop - start) start stop step

/-- Iteration sequence of the three nested tile loops of `process_sc`
(lines 126-130), flattened in execution order.  Each element is the pair of
the destination byte offset `i = (_w + h * width) * pixel_sz` and the segment
size `sz = min(block_sz, width - _w) * pixel_sz` of one scanline read. -/
def tileSpans (width height bpp : Nat) : List (Nat × Nat) :=
  (rangeStep 0 height 32).flatMap fun th =>
    (rangeStep 0 width 32).flatMap fun tw =>
      (rangeStep th (min (th + 32) height) 1).map fun h =>
        ((tw + h * width) * bpp, min 32 (width - tw) * bpp)

/-- Python bytearray slice assignment `buf[i : i + n] = seg` (line 131); when
`seg` is shorter than `n` the buffer shrinks, exactly as in Python. -/
def writeSlice (buf : List Nat) (i n : Nat) (seg : List Nat) : List Nat :=
  buf.take i ++ seg ++ buf.drop (i + n)

/-- Body of one iteration of the innermost tile loop:
`pixels[i : i + sz] = reader.read(sz)`. -/
def tileStep (st : List Nat × Reader) (sp : Nat × Nat) : List Nat × Reader :=
  let (seg, r) := st.2.read (sp.2 : Int)
  (writeSlice st.1 sp.1 sp.2 seg, r)

/-- Tiled block reader of `process_sc` (lines 123-132): a zero-initialised
buffer of `file_size - 5` bytes filled scanline segment by scanline segment
from the cursor, in tile order. -/
def readTiledR (width height bpp bufLen : Nat) (r : Reader) : List Nat × Reader :=
  (tileSpans width height bpp).foldl tileStep (List.replicate bufLen 0, r)

/-- Tile-order serialisation of a row-major buffer, written after the words
of the specification: tiles are visited in row-major tile order, each tile is
emitted scanline by scanline, and edge tiles are clipped to the image
boundary; the emitted scanline segments are exactly the row-major segments
the block reader writes back. -/
def specTileSerialize (width height bpp : Nat) (buf : List Nat) : List Nat :=
  (tileSpans width height bpp).flatMap fun sp => (buf.drop sp.1).take sp.2

/-- Chunk loop of `process_sc` (lines 107-138), with the image save replaced
by accumulating the decoded images in 1-based encounter order.  Fuel bounds
the recursion: every iteration decreases `_bytes_left` by at least 5, so fuel
`decompressed.length + 1` can never run out when called from `process_sc`. -/
def processChunks (pil : PilFn) : Nat → Reader → List DecodedImage →
    Except Err (List DecodedImage)
  | 0, _, acc => Except.ok acc.reverse
  | fuel + 1, r, acc =>
    if r.len = 0 then Except.ok acc.reverse
    else
      let (file_type, r) := r.read_byte
      let (file_size, r) := r.read_uint32
      if file_type ∉ ([1, 24, 27, 28] : List Nat) then
        let (_, r) := r.read (file_size : Int)
        processChunks pil fuel r acc
      else
        let (sub_type, r) := r.read_byte
        let (width, r) := r.read_uint16
        let (height, r) := r.read_uint16
        if file_type = 27 ∨ file_type = 28 then
          match pixel_size sub_type with
          | Except.error e => Except.error e
          | Except.ok psz =>
            if (file_size : Int) - 5 < 0 then Except.error Err.negativeBufferSize
            else
              let (pixels, r) := readTiledR width height psz (file_size - 5) r
              match create_image pil width height pixels sub_type with
              | Except.error e => Except.error e
              | Except.ok img => processChunks pil fuel r (img :: acc)
        else
          let (pixels, r) := r.read ((file_size : Int) - 5)
          match create_image pil width height pixels sub_type with
          | Except.error e => Except.error e
          | Except.ok img => processChunks pil fuel r (img :: acc)

/-- Function `process_sc` (lines 98-138), parameterised by the external MD5
primitive and the two codecs: slice the digest from bytes 10..26 and the
compressed body from byte 26 on, decompress, verify the digest, then run the
chunk loop over a fresh cursor. -/
def process_sc (pil : PilFn) (md5 : List Nat → List Nat)
    (lzham : List Nat → Nat → Nat → List Nat) (lzma : List Nat → List Nat)
    (data : List Nat) : Except Err (List DecodedImage) :=
  let decompressed := decompress lzham lzma (data.drop 26)
  if md5 decompressed = (data.drop 10).take 16 then
    processChunks pil (decompressed.length + 1) (Reader.ofBytes decompressed) []
  else Except.error Err.corrupted

/-- Concrete stand-in for the external PIL unpacker, used by witnesses. -/
def pil0 : PilFn := fun _ _ _ _ => []

/-- Concrete stand-in for the external MD5 primitive, used by witnesses. -/
def md5c : List Nat → List Nat := fun _ => []

/-- Concrete stand-in for the dictionary codec, used by witnesses. -/
def lzhamc : List Nat → Nat → Nat → List Nat := fun _ _ _ => []

/-- Concrete stand-in for the general-purpose codec, used by witnesses. -/
def lzmac : List Nat → List Nat := fun _ => []

/-! ## Helper lemmas -/

/-- Positional view of `getD` through `drop`. -/
theorem getD_drop (l : List Nat) (i j : Nat) :
    (l.drop i).getD j 0 = l.getD (i + j) 0 := by
  simp [List.getD_eq_getElem?_getD, List.getElem?_drop]

/-- Explicit listing of the first four elements of a list of length at least 4. -/
theorem take_four_view (ys : List Nat) (h : 4 ≤ ys.length) :
    ys.take 4 = [ys.getD 0 0, ys.getD 1 0, ys.getD 2 0, ys.getD 3 0] := by
  rcases ys with _ | ⟨a, _ | ⟨b, _ | ⟨c, _ | ⟨d, t⟩⟩⟩⟩
  · simp at h
  · simp at h
  · simp at h
  · simp at h
  · simp [List.getD]

/-- Explicit listing of the first element of a nonempty list. -/
theorem take_one_view (ys : List Nat) (h : 1 ≤ ys.length) :
    ys.take 1 = [ys.getD 0 0] := by
  rcases ys with _ | ⟨a, t⟩
  · simp at h
  · simp [List.getD]

/-- A pixel coordinate pair inside the image gives a cell index below
`width * height`. -/
theorem pixel_offset_lt (w h width height : Nat) (hw : w < width) (hh : h < height) :
    w + h * width < width * height := by
  calc w + h * width < width + h * width := by omega
    _ = (h + 1) * width := by ring
    _ ≤ height * width := Nat.mul_le_mul_right _ hh
    _ = width * height := Nat.mul_comm _ _

/-! ## Claim C1 -/

/-- C1 counterexample: a decompressed body `[5, 9, 0, 0, 0]` declares an
opaque chunk (kind 5) with `payloadSize = 9` but supplies no payload bytes.
The claim says the cursor read must fail with `TruncatedInput` and the parse
must abort; instead `Reader.read` silently returns the empty remainder, the
remaining counter goes negative, `__len__` clamps it to 0, and the chunk loop
exits normally with a silently short (empty) image list. -/
theorem truncated_chunk_returns_short_list :
    processChunks pil0 6 (Reader.ofBytes [5, 9, 0, 0, 0]) [] =
      Except.ok ([] : List DecodedImage) := rfl

/-- C1 amended: on a read that overshoots the remaining bytes, `Reader.read`
returns the short remainder (strictly fewer bytes than requested) without any
error, and afterwards `__len__` is clamped to 0, which is why the chunk loop
of `process_sc` simply stops.  The third hypothesis is the invariant that
`_bytes_left` never exceeds the bytes actually remaining in the buffer. -/
theorem overshooting_read_is_silent (r : Reader) (n : Int)
    (hpos : r.pos ≤ r.data.length)
    (hover : (r.data.length : Int) - (r.pos : Int) < n)
    (hinv : r.bytesLeft ≤ (r.data.length : Int) - (r.pos : Int)) :
    (r.read n).1 = r.data.drop r.pos ∧
    ((r.read n).1.length : Int) < n ∧
    ((r.read n).2).len = 0 := by
  have hn : ¬ n < 0 := by omega
  have hlen : (r.data.drop r.pos).length = r.data.length - r.pos :=
    List.length_drop _ _
  have hshort : (r.data.drop r.pos).length ≤ n.toNat := by omega
  have hout : (r.read n).1 = r.data.drop r.pos := by
    simp [Reader.read, hn, List.take_of_length_le hshort]
  refine ⟨hout, ?_, ?_⟩
  · rw [hout]; omega
  · have hneg : (r.read n).2.bytesLeft < 0 := by
      simp [Reader.read, hn]
      omega
    simp [Reader.len, hneg]

/-- Witness for the amended C1 theorem at a concrete overshooting read. -/
theorem overshooting_read_is_silent_witness :
    ((Reader.ofBytes [1, 2]).read 5).1 = [1, 2] ∧
    ((((Reader.ofBytes [1, 2]).read 5).1.length : Int) < 5) ∧
    (((Reader.ofBytes [1, 2]).read 5).2).len = 0 := by
  have h := overshooting_read_is_silent (Reader.ofBytes [1, 2]) 5
    (by decide) (by decide) (by decide)
  exact ⟨h.1, h.2.1, h.2.2⟩

/-! ## Claim C2 -/

/-- C2: the parse slices the stored 16-byte digest from byte offsets 10..25
and the compressed body from offset 26 on, computes the digest of the
decompressed body, and on any byte-for-byte mismatch fails with the
corruption error before the chunk cursor is even constructed; the error
result carries no images. -/
theorem digest_mismatch_aborts_before_chunks (pil : PilFn)
    (md5 : List Nat → List Nat) (lzham : List Nat → Nat → Nat → List Nat)
    (lzma : List Nat → List Nat) (data : List Nat)
    (h : md5 (decompress lzham lzma (data.drop 26)) ≠ (data.drop 10).take 16) :
    process_sc pil md5 lzham lzma data = Except.error Err.corrupted := by
  simp [process_sc, h]

/-- Witness for C2 on a concrete 27-byte container whose stand-in digest
does not match. -/
theorem digest_mismatch_aborts_before_chunks_witness :
    md5c (decompress lzhamc lzmac ((List.replicate 27 0).drop 26)) ≠
      ((List.replicate 27 0).drop 10).take 16 ∧
    process_sc pil0 md5c lzhamc lzmac (List.replicate 27 0) =
      Except.error Err.corrupted := by
  refine ⟨by decide, digest_mismatch_aborts_before_chunks pil0 md5c lzhamc
    lzmac (List.replicate 27 0) (by decide)⟩

/-! ## Claim C10 -/

/-- C10: the parse is deterministic.  The embedding of `process_sc` is a pure
function of the input bytes and of the fixed external collaborators, so two
runs on the same input byte sequence yield identical results: the same image
sequence (widths, heights, color models and pixel bytes, in the same 1-based
encounter order) on success, or the same error on failure. -/
theorem parse_deterministic (pil : PilFn) (md5 : List Nat → List Nat)
    (lzham : List Nat → Nat → Nat → List Nat) (lzma : List Nat → List Nat)
    (data : List Nat) (r1 r2 : Except Err (List DecodedImage))
    (h1 : r1 = process_sc pil md5 lzham lzma data)
    (h2 : r2 = process_sc pil md5 lzham lzma data) : r1 = r2 := by
  rw [h1, h2]

/-- Witness for C10 at a concrete run. -/
theorem parse_deterministic_witness :
    process_sc pil0 md5c lzhamc lzmac (List.replicate 27 0) =
      process_sc pil0 md5c lzhamc lzmac (List.replicate 27 0) :=
  parse_deterministic pil0 md5c lzhamc lzmac (List.replicate 27 0) _ _ rfl rfl

/-! ## Claim C5 -/

/-- C5: when the compressed body begins with the SCLZ marker, the
dictionary-size exponent is read as a big-endian single byte at index 4 (the
5th byte), the exact uncompressed size as the little-endian u32 over indices
5..8 (the 6th to 9th bytes), and the stream from index 9 (the 10th byte)
onward is handed to the dictionary-based codec together with both
parameters. -/
theorem sclz_header_parsing (lzham : List Nat → Nat → Nat → List Nat)
    (lzma : List Nat → List Nat) (data : List Nat)
    (hm : data.take 4 = sclzMarker) (hlen : 9 ≤ data.length) :
    decompress lzham lzma data =
      lzham (data.drop 9)
        (data.getD 5 0 + 256 * data.getD 6 0 + 65536 * data.getD 7 0 +
          16777216 * data.getD 8 0)
        (data.getD 4 0) := by
  have h4 : 4 ≤ (data.drop 5).length := by simp; omega
  have h1 : 1 ≤ (data.drop 4).length := by simp; omega
  rw [decompress, if_pos hm, take_four_view _ h4, take_one_view _ h1,
    getD_drop, getD_drop, getD_drop, getD_drop, getD_drop]
  simp [fromLE, fromBE]
  ring_nf

/-- Witness for C5 at a concrete SCLZ-marked body. -/
theorem sclz_header_parsing_witness :
    ([83, 67, 76, 90, 7, 1, 2, 3, 4, 42, 43] : List Nat).take 4 = sclzMarker ∧
    decompress lzhamc lzmac [83, 67, 76, 90, 7, 1, 2, 3, 4, 42, 43] =
      lzhamc [42, 43] (1 + 256 * 2 + 65536 * 3 + 16777216 * 4) 7 := by
  refine ⟨by decide, ?_⟩
  have h := sclz_header_parsing lzhamc lzmac
    [83, 67, 76, 90, 7, 1, 2, 3, 4, 42, 43] (by decide) (by decide)
  exact h

/-! ## Claim C6 -/

/-- C6: when the compressed body does not begin with the SCLZ marker, the
decompressor keeps the first 9 bytes as the codec properties, splices exactly
4 zero bytes immediately after offset 9, keeps the remainder unchanged after
them, and feeds the spliced buffer to the general-purpose streaming
decoder. -/
theorem lzma_header_splice (lzham : List Nat → Nat → Nat → List Nat)
    (lzma : List Nat → List Nat) (data : List Nat)
    (hm : data.take 4 ≠ sclzMarker) (hlen : 9 ≤ data.length) :
    ∃ spliced,
      decompress lzham lzma data = lzma spliced ∧
      spliced.length = data.length + 4 ∧
      spliced.take 9 = data.take 9 ∧
      (spliced.drop 9).take 4 = List.replicate 4 0 ∧
      spliced.drop 13 = data.drop 9 := by
  refine ⟨data.take 9 ++ List.replicate 4 0 ++ data.drop 9, ?_, ?_, ?_, ?_, ?_⟩
  · rw [decompress, if_neg hm]
  · simp; omega
  · rw [List.take_append_of_le_length (by simp; omega),
      List.take_append_of_le_length (by simp; omega)]
    simp [List.take_take]
  · rw [List.drop_append_of_le_length (by simp; omega)]
    have h9 : (data.take 9).length = 9 := by simp; omega
    simp [h9]
  · have h13 : ((data.take 9 ++ List.replicate 4 0) : List Nat).length = 13 := by
      simp; omega
    rw [← h13, List.drop_left]

/-- Witness for C6 at a concrete non-SCLZ body of 10 bytes. -/
theorem lzma_header_splice_witness :
    ([9, 8, 7, 6, 5, 4, 3, 2, 1, 0] : List Nat).take 4 ≠ sclzMarker ∧
    ∃ spliced,
      decompress lzhamc lzmac [9, 8, 7, 6, 5, 4, 3, 2, 1, 0] = lzmac spliced ∧
      spliced.length = 14 ∧
      spliced.take 9 = ([9, 8, 7, 6, 5, 4, 3, 2, 1, 0] : List Nat).take 9 ∧
      (spliced.drop 9).take 4 = List.replicate 4 0 ∧
      spliced.drop 13 = ([9, 8, 7, 6, 5, 4, 3, 2, 1, 0] : List Nat).drop 9 := by
  refine ⟨by decide, ?_⟩
  have h := lzma_header_splice lzhamc lzmac [9, 8, 7, 6, 5, 4, 3, 2, 1, 0]
    (by decide) (by decide)
  obtain ⟨spliced, h1, h2, h3, h4, h5⟩ := h
  exact ⟨spliced, h1, by simp [h2], h3, h4, h5⟩

/-! ## Claim C7 -/

/-- C7: under pixel format 4, every in-image pixel of a buffer of 0xFFFF
little-endian words decodes to RGB `(248, 252, 248)` — the 5-bit field 0x1F
left-shifted by 3 and the 6-bit field 0x3F left-shifted by 2 — and under
pixel format 10 a source byte 0x80 decodes to luminance 128. -/
theorem format4_format10_pixel_values (pil : PilFn) (width height w h : Nat)
    (pixels : List Nat) (hw : w < width) (hh : h < height) :
    (create_image pil width height (List.replicate (width * height * 2) 255) 4).map
        (fun img => img.px (w, h)) = Except.ok [248, 252, 248] ∧
    (width * height ≤ pixels.length → pixels.getD (w + h * width) 0 = 128 →
      (create_image pil width height pixels 10).map (fun img => img.px (w, h)) =
        Except.ok [128]) := by
  have key : w + h * width < width * height := pixel_offset_lt w h width height hw hh
  constructor
  · have h2 : 2 ≤ width * height * 2 - (w + h * width) * 2 := by omega
    simp only [create_image]
    norm_num
    simp only [Except.map]
    rw [Nat.min_eq_left h2]
    rfl
  · intro hplen hpx
    have hnot : ¬ pixels.length < width * height := by omega
    simp only [create_image]
    norm_num [hnot]
    simp only [Except.map]
    simp only [List.getD_eq_getElem?_getD] at hpx
    rw [hpx]

/-- Witness for C7 at a concrete 1-by-1 image for both formats. -/
theorem format4_format10_pixel_values_witness :
    (create_image pil0 1 1 (List.replicate (1 * 1 * 2) 255) 4).map
        (fun img => img.px (0, 0)) = Except.ok [248, 252, 248] ∧
    (create_image pil0 1 1 [128] 10).map (fun img => img.px (0, 0)) =
      Except.ok [128] := by
  have h := format4_format10_pixel_values pil0 1 1 0 0 [128]
    (by decide) (by decide)
  exact ⟨h.1, h.2 (by decide) (by decide)⟩

/-! ## Claim C8 -/

/-- C8: under pixel format 2, the decoder reads the 16-bit little-endian
value at byte offset `(w + h * width) * 2` (low byte `a`, high byte `b`) and
yields RGBA whose four channels are the 4-bit fields of that value at bit
positions 12, 8, 4 and 0 respectively, each expanded by a left shift of 4
(written below as division, remainder by 16 and multiplication by 16). -/
theorem format2_pixel_decode (pil : PilFn) (width height w h a b : Nat)
    (rest pixels : List Nat) (hw : w < width) (hh : h < height)
    (ha : a < 256) (hb : b < 256)
    (hbytes : pixels.drop ((w + h * width) * 2) = a :: b :: rest) :
    (create_image pil width height pixels 2).map (fun img => img.px (w, h)) =
      Except.ok [(a + 256 * b) / 4096 % 16 * 16, (a + 256 * b) / 256 % 16 * 16,
        (a + 256 * b) / 16 % 16 * 16, (a + 256 * b) % 16 * 16] := by
  simp only [create_image]
  norm_num
  simp only [Except.map]
  rw [hbytes]
  simp only [List.take_succ_cons, List.take_zero, fromLE]
  simp only [Nat.shiftRight_eq_div_pow, Nat.shiftLeft_eq,
    show (15 : Nat) = 2 ^ 4 - 1 from rfl, Nat.and_pow_two_sub_one_eq_mod]
  norm_num

/-- Witness for C8 at a concrete pixel with source word 0x1234. -/
theorem format2_pixel_decode_witness :
    ([52, 18] : List Nat).drop ((0 + 0 * 1) * 2) = 52 :: 18 :: [] ∧
    (create_image pil0 1 1 [52, 18] 2).map (fun img => img.px (0, 0)) =
      Except.ok [(52 + 256 * 18) / 4096 % 16 * 16, (52 + 256 * 18) / 256 % 16 * 16,
        (52 + 256 * 18) / 16 % 16 * 16, (52 + 256 * 18) % 16 * 16] := by
  refine ⟨by decide, ?_⟩
  exact format2_pixel_decode pil0 1 1 0 0 52 18 [] [52, 18]
    (by decide) (by decide) (by decide) (by decide) (by decide)

/-! ## Claim C9 -/

/-- C9: any pixel-format code outside `{0, 1, 2, 3, 4, 6, 10}` makes both
`create_image` and `pixel_size` fail with the unknown-format error, and the
result of `create_image` does not depend on the pixel payload at all — no
byte of it is interpreted. -/
theorem unknown_pixel_format_rejected (pil : PilFn) (width height c : Nat)
    (pixels : List Nat) (h : c ∉ ([0, 1, 2, 3, 4, 6, 10] : List Nat)) :
    create_image pil width height pixels c = Except.error (Err.unknownSubType c) ∧
    (∀ pixels', create_image pil width height pixels c =
      create_image pil width height pixels' c) ∧
    pixel_size c = Except.error (Err.unknownSubType c) := by
  simp only [List.mem_cons, List.not_mem_nil, or_false, not_or] at h
  obtain ⟨h0, h1, h2, h3, h4, h6, h10⟩ := h
  refine ⟨?_, ?_, ?_⟩
  · simp [create_image, h0, h1, h2, h3, h4, h6, h10]
  · intro pixels'
    simp [create_image, h0, h1, h2, h3, h4, h6, h10]
  · simp [pixel_size, h0, h1, h2, h3, h4, h6, h10]

/-- Witness for C9 at the concrete unknown code 99. -/
theorem unknown_pixel_format_rejected_witness :
    create_image pil0 1 1 [1, 2, 3] 99 = Except.error (Err.unknownSubType 99) ∧
    (∀ pixels', create_image pil0 1 1 [1, 2, 3] 99 =
      create_image pil0 1 1 pixels' 99) ∧
    pixel_size 99 = Except.error (Err.unknownSubType 99) :=
  unknown_pixel_format_rejected pil0 1 1 99 [1, 2, 3] (by decide)

/-! ## Range and tiling infrastructure for C3 and C4 -/

/-- Computation of `rangeStepAux` is independent of the fuel, as long as the
fuel is at least `stop - start` and the step is positive. -/
theorem rangeStepAux_fuel (k : Nat) (hk : 0 < k) :
    ∀ (f1 : Nat), ∀ (f2 s n : Nat), n - s ≤ f1 → n - s ≤ f2 →
      rangeStepAux f1 s n k = rangeStepAux f2 s n k := by
  intro f1
  induction f1 with
  | zero =>
    intro f2 s n h1 h2
    have hsn : ¬ s < n := by omega
    cases f2 with
    | zero => rfl
    | succ f2 => simp [rangeStepAux, hsn]
  | succ f1 ih =>
    intro f2 s n h1 h2
    by_cases hsn : s < n
    · have hf2 : ∃ f2', f2 = f2' + 1 := by
        cases f2 with
        | zero => omega
        | succ f2' => exact ⟨f2', rfl⟩
      obtain ⟨f2', rfl⟩ := hf2
      simp only [rangeStepAux, if_pos hsn]
      rw [ih f2' (s + k) n (by omega) (by omega)]
    · cases f2 with
      | zero => simp [rangeStepAux, hsn]
      | succ f2' => simp [rangeStepAux, hsn]

/-- Unfolding equation of `rangeStep` for a positive step. -/
theorem rangeStep_eq (s n k : Nat) (hk : 0 < k) :
    rangeStep s n k = if s < n then s :: rangeStep (s + k) n k else [] := by
  by_cases hsn : s < n
  · rw [if_pos hsn]
    have h1 : ∃ m, n - s = m + 1 := ⟨n - s - 1, by omega⟩
    obtain ⟨m, hm⟩ := h1
    rw [rangeStep, hm]
    simp only [rangeStepAux, if_pos hsn]
    rw [rangeStep]
    exact congrArg _ (rangeStepAux_fuel k hk m (n - (s + k)) (s + k) n
      (by omega) (by omega))
  · rw [if_neg hsn, rangeStep]
    have : n - s = 0 := by omega
    rw [this]
    rfl

/-- Every element produced by `rangeStepAux` lies in `[start, stop)`. -/
theorem mem_rangeStepAux (n k : Nat) :
    ∀ (fuel s a : Nat), a ∈ rangeStepAux fuel s n k → s ≤ a ∧ a < n := by
  intro fuel
  induction fuel with
  | zero => intro s a ha; simp [rangeStepAux] at ha
  | succ fuel ih =>
    intro s a ha
    by_cases hsn : s < n
    · rw [rangeStepAux, if_pos hsn] at ha
      rcases List.mem_cons.mp ha with rfl | ha
      · exact ⟨le_refl _, hsn⟩
      · have := ih (s + k) a ha
        omega
    · rw [rangeStepAux, if_neg hsn] at ha
      simp at ha

/-- Every element produced by `rangeStep s n k` lies in the interval
`[s, n)`. -/
theorem mem_rangeStep (s n k a : Nat) (h : a ∈ rangeStep s n k) :
    s ≤ a ∧ a < n :=
  mem_rangeStepAux n k (n - s) s a h

/-- Membership in `rangeStep s n k` for a value of the form `s + k * m`
inside `[s, n)`, by induction on the multiplier. -/
theorem rangeStep_mem_mul : ∀ (m s n k a : Nat), 0 < k → s ≤ a → a < n →
    a - s = k * m → a ∈ rangeStep s n k := by
  intro m
  induction m with
  | zero =>
    intro s n k a hk hs hn hm
    simp only [Nat.mul_zero] at hm
    have : a = s := by omega
    subst this
    rw [rangeStep_eq _ _ _ hk, if_pos (by omega)]
    exact List.mem_cons_self _ _
  | succ m ih =>
    intro s n k a hk hs hn hm
    have hkm : k * (m + 1) = k * m + k := by ring
    rw [rangeStep_eq _ _ _ hk, if_pos (by omega)]
    exact List.mem_cons_of_mem _ (ih (s + k) n k a hk (by omega) hn (by omega))

/-- Membership in `rangeStep s n k` for a value in `[s, n)` whose distance
from the start is a multiple of the step. -/
theorem rangeStep_mem (s n k a : Nat) (hk : 0 < k) (hs : s ≤ a) (hn : a < n)
    (hdvd : k ∣ (a - s)) : a ∈ rangeStep s n k := by
  obtain ⟨m, hm⟩ := hdvd
  exact rangeStep_mem_mul m s n k a hk hs hn hm

/-- Fuel-indexed version of the telescoping sum of clipped block sizes. -/
theorem rangeStep_sum_min_aux (k : Nat) (hk : 0 < k) :
    ∀ (d s n : Nat), n - s ≤ d →
      ((rangeStep s n k).map (fun a => min k (n - a))).sum = n - s := by
  intro d
  induction d with
  | zero =>
    intro s n h
    rw [rangeStep_eq _ _ _ hk, if_neg (by omega)]
    simp
    omega
  | succ d ih =>
    intro s n h
    by_cases hsn : s < n
    · rw [rangeStep_eq _ _ _ hk, if_pos hsn]
      simp only [List.map_cons, List.sum_cons]
      rw [ih (s + k) n (by omega)]
      omega
    · rw [rangeStep_eq _ _ _ hk, if_neg hsn]
      simp
      omega

/-- Summing `min k (n - a)` over `rangeStep s n k` telescopes to `n - s`:
the clipped blocks starting at `s, s + k, ...` cover `[s, n)` exactly. -/
theorem rangeStep_sum_min (s n k : Nat) (hk : 0 < k) :
    ((rangeStep s n k).map (fun a => min k (n - a))).sum = n - s :=
  rangeStep_sum_min_aux k hk (n - s) s n (le_refl _)

/-- Length of a unit-step range. -/
theorem rangeStep_one_length (s n : Nat) : (rangeStep s n 1).length = n - s := by
  have h := rangeStep_sum_min s n 1 Nat.one_pos
  have hcongr : (rangeStep s n 1).map (fun a => min 1 (n - a)) =
      (rangeStep s n 1).map (fun _ => 1) := by
    apply List.map_congr_left
    intro a ha
    have := mem_rangeStep s n 1 a ha
    omega
  rw [hcongr, List.map_const', List.sum_replicate, smul_eq_mul, Nat.mul_one] at h
  exact h

/-- Every scanline span of the tile traversal stays inside the row-major
buffer of `width * height * bpp` bytes. -/
theorem tileSpans_bounds (width height bpp : Nat) (sp : Nat × Nat)
    (hsp : sp ∈ tileSpans width height bpp) :
    sp.1 + sp.2 ≤ width * height * bpp := by
  simp only [tileSpans, List.mem_flatMap, List.mem_map] at hsp
  obtain ⟨th, hth, tw, htw, y, hy, rfl⟩ := hsp
  obtain ⟨hths, hthn⟩ := mem_rangeStep _ _ _ _ hth
  obtain ⟨htws, htwn⟩ := mem_rangeStep _ _ _ _ htw
  obtain ⟨hys, hyn⟩ := mem_rangeStep _ _ _ _ hy
  have hyh : y < height := lt_of_lt_of_le hyn (min_le_right _ _)
  have h2 : tw + y * width + min 32 (width - tw) ≤ (y + 1) * width := by
    have hexp : (y + 1) * width = y * width + width := by ring
    omega
  calc (tw + y * width) * bpp + min 32 (width - tw) * bpp
      = (tw + y * width + min 32 (width - tw)) * bpp := by ring
    _ ≤ ((y + 1) * width) * bpp := Nat.mul_le_mul_right _ h2
    _ ≤ (height * width) * bpp :=
        Nat.mul_le_mul_right _ (Nat.mul_le_mul_right _ hyh)
    _ = width * height * bpp := by ring

/-- Every byte position of the row-major buffer is covered by some scanline
span of the tile traversal: position `j` decomposes into a pixel coordinate
`(x, y)` and a byte offset inside the pixel, and the tile containing `(x, y)`
writes the row segment that contains `j`. -/
theorem tileSpans_cover (width height bpp j : Nat)
    (hj : j < width * height * bpp) :
    ∃ sp ∈ tileSpans width height bpp, sp.1 ≤ j ∧ j < sp.1 + sp.2 := by
  rcases Nat.eq_zero_or_pos bpp with rfl | hbpp
  · simp at hj
  rcases Nat.eq_zero_or_pos width with rfl | hw
  · simp at hj
  rcases Nat.eq_zero_or_pos height with rfl | hh
  · simp at hj
  obtain ⟨q, rr, hrr, hjq, hqwh⟩ :
      ∃ q rr, rr < bpp ∧ bpp * q + rr = j ∧ q < width * height := by
    refine ⟨j / bpp, j % bpp, Nat.mod_lt _ hbpp, Nat.div_add_mod _ _, ?_⟩
    rw [Nat.div_lt_iff_lt_mul hbpp]
    exact hj
  obtain ⟨y, x, hxw, hyh, hxyq⟩ :
      ∃ y x, x < width ∧ y < height ∧ x + y * width = q := by
    refine ⟨q / width, q % width, Nat.mod_lt _ hw, ?_, ?_⟩
    · rw [Nat.div_lt_iff_lt_mul hw]
      calc q < width * height := hqwh
        _ = height * width := Nat.mul_comm _ _
    · have h1 := Nat.div_add_mod q width
      have h2 : q / width * width = width * (q / width) := Nat.mul_comm _ _
      omega
  obtain ⟨tw, htw1, htw2, htwd⟩ : ∃ tw, tw ≤ x ∧ x < tw + 32 ∧ 32 ∣ tw := by
    refine ⟨x / 32 * 32, Nat.div_mul_le_self _ _, ?_, ⟨x / 32, Nat.mul_comm _ _⟩⟩
    have h1 := Nat.div_add_mod x 32
    have h2 : x / 32 * 32 = 32 * (x / 32) := Nat.mul_comm _ _
    have h3 : x % 32 < 32 := Nat.mod_lt _ (by norm_num)
    omega
  obtain ⟨th, hth1, hth2, hthd⟩ : ∃ th, th ≤ y ∧ y < th + 32 ∧ 32 ∣ th := by
    refine ⟨y / 32 * 32, Nat.div_mul_le_self _ _, ?_, ⟨y / 32, Nat.mul_comm _ _⟩⟩
    have h1 := Nat.div_add_mod y 32
    have h2 : y / 32 * 32 = 32 * (y / 32) := Nat.mul_comm _ _
    have h3 : y % 32 < 32 := Nat.mod_lt _ (by norm_num)
    omega
  refine ⟨((tw + y * width) * bpp, min 32 (width - tw) * bpp), ?_, ?_, ?_⟩
  · simp only [tileSpans, List.mem_flatMap, List.mem_map]
    refine ⟨th, ?_, tw, ?_, y, ?_, rfl⟩
    · exact rangeStep_mem 0 height 32 th (by norm_num) (Nat.zero_le _)
        (by omega) (by simpa using hthd)
    · exact rangeStep_mem 0 width 32 tw (by norm_num) (Nat.zero_le _)
        (by omega) (by simpa using htwd)
    · exact rangeStep_mem th (min (th + 32) height) 1 y Nat.one_pos hth1
        (by omega) (one_dvd _)
  · have h1 : tw + y * width ≤ q := by omega
    have h2 : (tw + y * width) * bpp ≤ q * bpp := Nat.mul_le_mul_right _ h1
    have h3 : q * bpp = bpp * q := Nat.mul_comm _ _
    omega
  · have h2 : x + 1 ≤ tw + min 32 (width - tw) := by omega
    have h3 : q + 1 ≤ tw + min 32 (width - tw) + y * width := by omega
    have h4 : (q + 1) * bpp ≤ (tw + min 32 (width - tw) + y * width) * bpp :=
      Nat.mul_le_mul_right _ h3
    have h5 : (q + 1) * bpp = bpp * q + bpp := by ring
    have h6 : (tw + min 32 (width - tw) + y * width) * bpp =
        (tw + y * width) * bpp + min 32 (width - tw) * bpp := by ring
    omega

/-- Length preservation of an in-bounds, length-matching slice write. -/
theorem writeSlice_length (buf : List Nat) (i n : Nat) (seg : List Nat)
    (hin : i + n ≤ buf.length) (hseg : seg.length = n) :
    (writeSlice buf i n seg).length = buf.length := by
  simp [writeSlice, hseg]
  omega

/-- Pointwise effect of an in-bounds, length-matching slice write. -/
theorem writeSlice_getD (buf : List Nat) (i n : Nat) (seg : List Nat)
    (hin : i + n ≤ buf.length) (hseg : seg.length = n) (j : Nat) :
    (writeSlice buf i n seg).getD j 0 =
      if i ≤ j ∧ j < i + n then seg.getD (j - i) 0 else buf.getD j 0 := by
  have hti : (buf.take i).length = i := by simp; omega
  simp only [writeSlice, List.getD_eq_getElem?_getD]
  rw [List.append_assoc]
  rcases Nat.lt_or_ge j i with hj | hj
  · rw [List.getElem?_append_left (by rw [hti]; omega), List.getElem?_take]
    have hcond : ¬ (i ≤ j ∧ j < i + n) := by omega
    simp [hj, hcond]
  · rw [List.getElem?_append_right (by rw [hti]; omega), hti]
    rcases Nat.lt_or_ge j (i + n) with hj2 | hj2
    · rw [List.getElem?_append_left (by rw [hseg]; omega)]
      simp [hj, hj2]
    · rw [List.getElem?_append_right (by rw [hseg]; omega), hseg,
        List.getElem?_drop]
      have hidx : i + n + (j - i - n) = j := by omega
      rw [hidx]
      have hcond : ¬ (i ≤ j ∧ j < i + n) := by omega
      simp [hcond]

/-- Reading a row segment back out of the row-major buffer. -/
theorem slice_getD (buf : List Nat) (i n j : Nat) (h1 : i ≤ j) (h2 : j < i + n) :
    ((buf.drop i).take n).getD (j - i) 0 = buf.getD j 0 := by
  simp only [List.getD_eq_getElem?_getD, List.getElem?_take, List.getElem?_drop]
  have hcond : j - i < n := by omega
  have hidx : i + (j - i) = j := by omega
  simp [hcond, hidx]

/-- Main invariant of the tile read loop: when the cursor stream from the
current position is exactly the serialisation of the spans still to process
(each span in bounds for `buf`), the loop writes `buf.getD j 0` to every
position `j` covered by some span and leaves every uncovered position at its
initial value, preserving the buffer length. -/
theorem tileFold_invariant (buf : List Nat) :
    ∀ (L : List (Nat × Nat)) (B : List Nat) (r : Reader),
      B.length = buf.length →
      (∀ sp ∈ L, sp.1 + sp.2 ≤ buf.length) →
      r.pos ≤ r.data.length →
      r.data.drop r.pos = L.flatMap (fun sp => (buf.drop sp.1).take sp.2) →
      (L.foldl tileStep (B, r)).1.length = buf.length ∧
      ∀ j, j < buf.length →
        ((∃ sp ∈ L, sp.1 ≤ j ∧ j < sp.1 + sp.2) →
          (L.foldl tileStep (B, r)).1.getD j 0 = buf.getD j 0) ∧
        ((∀ sp ∈ L, ¬ (sp.1 ≤ j ∧ j < sp.1 + sp.2)) →
          (L.foldl tileStep (B, r)).1.getD j 0 = B.getD j 0) := by
  intro L
  induction L with
  | nil =>
    intro B r hB _ _ _
    refine ⟨hB, fun j hj => ⟨?_, fun _ => rfl⟩⟩
    rintro ⟨sp, hsp, -⟩
    simp at hsp
  | cons sp L ih =>
    intro B r hB hbnd hpos hstream
    have hsp_bnd : sp.1 + sp.2 ≤ buf.length := hbnd sp (List.mem_cons_self _ _)
    have hslice_len : ((buf.drop sp.1).take sp.2).length = sp.2 := by
      simp
      omega
    rw [List.flatMap_cons] at hstream
    have hdlen : (r.data.drop r.pos).length = r.data.length - r.pos := by simp
    have havail : sp.2 ≤ r.data.length - r.pos := by
      rw [← hdlen, hstream]
      simp
      omega
    have hnneg : ¬ ((sp.2 : Int) < 0) := by omega
    have hread_out : (r.read (sp.2 : Int)).1 = (buf.drop sp.1).take sp.2 := by
      simp only [Reader.read, if_neg hnneg, Int.toNat_natCast]
      rw [hstream, List.take_left' hslice_len]
    have hstep : tileStep (B, r) sp =
        (writeSlice B sp.1 sp.2 ((buf.drop sp.1).take sp.2),
          (r.read (sp.2 : Int)).2) := by
      simp only [tileStep, hread_out]
    have hpos2 : (r.read (sp.2 : Int)).2.pos = r.pos + sp.2 := by
      simp only [Reader.read, if_neg hnneg, Int.toNat_natCast]
      rw [hstream, List.take_left' hslice_len, hslice_len]
    have hdata2 : (r.read (sp.2 : Int)).2.data = r.data := rfl
    have hstream2 : (r.read (sp.2 : Int)).2.data.drop ((r.read (sp.2 : Int)).2.pos) =
        L.flatMap (fun sp => (buf.drop sp.1).take sp.2) := by
      rw [hdata2, hpos2, ← List.drop_drop, hstream, List.drop_left' hslice_len]
    have hB2 : (writeSlice B sp.1 sp.2 ((buf.drop sp.1).take sp.2)).length =
        buf.length := by
      rw [writeSlice_length B sp.1 sp.2 _ (by omega) hslice_len, hB]
    have hrec := ih (writeSlice B sp.1 sp.2 ((buf.drop sp.1).take sp.2))
      ((r.read (sp.2 : Int)).2) hB2 (fun sp' hsp' => hbnd sp' (List.mem_cons_of_mem _ hsp'))
      (by rw [hdata2, hpos2]; omega) hstream2
    have hfold : (sp :: L).foldl tileStep (B, r) =
        L.foldl tileStep (writeSlice B sp.1 sp.2 ((buf.drop sp.1).take sp.2),
          (r.read (sp.2 : Int)).2) := by
      rw [List.foldl_cons, hstep]
    rw [hfold]
    obtain ⟨hlen2, H⟩ := hrec
    refine ⟨hlen2, fun j hj => ⟨?_, ?_⟩⟩
    · rintro ⟨sp', hsp', hcov⟩
      rcases List.mem_cons.mp hsp' with rfl | hmem
      · by_cases hL : ∃ sp'' ∈ L, sp''.1 ≤ j ∧ j < sp''.1 + sp''.2
        · exact (H j hj).1 hL
        · push_neg at hL
          rw [(H j hj).2 (fun sp'' h'' => by
            have := hL sp'' h''
            omega)]
          rw [writeSlice_getD B sp'.1 sp'.2 _ (by omega) hslice_len j,
            if_pos hcov]
          exact slice_getD buf sp'.1 sp'.2 j hcov.1 hcov.2
      · exact (H j hj).1 ⟨sp', hmem, hcov⟩
    · intro hnone
      rw [(H j hj).2 (fun sp'' h'' => hnone sp'' (List.mem_cons_of_mem _ h''))]
      rw [writeSlice_getD B sp.1 sp.2 _ (by omega) hslice_len j,
        if_neg (hnone sp (List.mem_cons_self _ _))]

/-! ## Claim C3 -/

/-- C3: serialising any row-major buffer of length
`width * height * bytesPerPixel` into 32x32 tile order — tiles in row-major
tile order, each tile scanline by scanline, edge tiles clipped to the image
boundary — and then decoding it with the tiled block reader of `process_sc`
reproduces the original buffer exactly. -/
theorem tiling_round_trip (width height bpp : Nat) (buf : List Nat)
    (hlen : buf.length = width * height * bpp) :
    (readTiledR width height bpp (width * height * bpp)
      (Reader.ofBytes (specTileSerialize width height bpp buf))).1 = buf := by
  have hinv := tileFold_invariant buf (tileSpans width height bpp)
    (List.replicate (width * height * bpp) 0)
    (Reader.ofBytes (specTileSerialize width height bpp buf))
    (by simp [hlen])
    (fun sp hsp => hlen ▸ tileSpans_bounds width height bpp sp hsp)
    (by simp [Reader.ofBytes])
    (by simp [Reader.ofBytes, specTileSerialize])
  obtain ⟨hL, H⟩ := hinv
  have hfold : readTiledR width height bpp (width * height * bpp)
      (Reader.ofBytes (specTileSerialize width height bpp buf)) =
      (tileSpans width height bpp).foldl tileStep
        (List.replicate (width * height * bpp) 0,
          Reader.ofBytes (specTileSerialize width height bpp buf)) := rfl
  rw [hfold]
  apply List.ext_getElem (by rw [hL])
  intro n h1 h2
  have hcov := tileSpans_cover width height bpp n (by omega)
  have hgd := (H n (by omega)).1 hcov
  exact (List.getD_eq_getElem _ _ h1).symm.trans
    (hgd.trans (List.getD_eq_getElem _ _ h2))

/-- Witness for C3 on a 33-by-1 single-byte-pixel image, whose single tile
row is clipped at the right edge. -/
theorem tiling_round_trip_witness :
    ((List.range 33).length = 33 * 1 * 1) ∧
    (readTiledR 33 1 1 (33 * 1 * 1)
      (Reader.ofBytes (specTileSerialize 33 1 1 (List.range 33)))).1 =
      List.range 33 := by
  refine ⟨by simp, tiling_round_trip 33 1 1 (List.range 33) (by simp)⟩

/-! ## Claim C4 -/

/-- Sum of the scanline segment sizes of one tile column list, for a fixed
tile row: each tile contributes its clipped row count times its clipped
segment size. -/
theorem tileSpans_row_sum (width height bpp th tw : Nat) :
    ((((rangeStep th (min (th + 32) height) 1).map fun h =>
        ((tw + h * width) * bpp, min 32 (width - tw) * bpp)).map Prod.snd).sum)
      = min 32 (height - th) * (min 32 (width - tw) * bpp) := by
  rw [List.map_map]
  have hconst : (Prod.snd ∘ fun h : Nat =>
      ((tw + h * width) * bpp, min 32 (width - tw) * bpp)) =
      fun _ : Nat => min 32 (width - tw) * bpp := rfl
  rw [hconst, List.map_const', List.sum_replicate, smul_eq_mul,
    rangeStep_one_length]
  have hmin : min (th + 32) height - th = min 32 (height - th) := by omega
  rw [hmin]

/-- Sum of the scanline segment sizes over an arbitrary tile column list. -/
theorem tileSpans_cols_sum (width height bpp th : Nat) :
    ∀ tws : List Nat,
      (((tws.flatMap fun tw =>
          (rangeStep th (min (th + 32) height) 1).map fun h =>
            ((tw + h * width) * bpp, min 32 (width - tw) * bpp)).map Prod.snd).sum)
        = ((tws.map fun tw => min 32 (width - tw)).sum) * bpp *
            min 32 (height - th) := by
  intro tws
  induction tws with
  | nil => simp
  | cons tw tws ih =>
    rw [List.flatMap_cons, List.map_append, List.sum_append, ih,
      tileSpans_row_sum, List.map_cons, List.sum_cons]
    ring

/-- Sum of the scanline segment sizes over an arbitrary tile row list. -/
theorem tileSpans_rows_sum (width height bpp : Nat) :
    ∀ ths : List Nat,
      (((ths.flatMap fun th =>
          (rangeStep 0 width 32).flatMap fun tw =>
            (rangeStep th (min (th + 32) height) 1).map fun h =>
              ((tw + h * width) * bpp, min 32 (width - tw) * bpp)).map Prod.snd).sum)
        = ((ths.map fun th => min 32 (height - th)).sum) * (width * bpp) := by
  intro ths
  induction ths with
  | nil => simp
  | cons th ths ih =>
    rw [List.flatMap_cons, List.map_append, List.sum_append, ih,
      tileSpans_cols_sum, List.map_cons, List.sum_cons]
    have hw : ((rangeStep 0 width 32).map fun tw => min 32 (width - tw)).sum =
        width := by
      have := rangeStep_sum_min 0 width 32 (by norm_num)
      simpa using this
    rw [hw]
    ring

/-- Total declared size of the scanline spans: the clipped tiles partition
the image, so the segment sizes sum to exactly `width * height * bpp`. -/
theorem tileSpans_sum (width height bpp : Nat) :
    ((tileSpans width height bpp).map Prod.snd).sum = width * height * bpp := by
  rw [tileSpans, tileSpans_rows_sum]
  have hh : ((rangeStep 0 height 32).map fun th => min 32 (height - th)).sum =
      height := by
    have := rangeStep_sum_min 0 height 32 (by norm_num)
    simpa using this
  rw [hh]
  ring

/-- Position and counter bookkeeping of the tile read loop: when the cursor
holds at least the total declared span size, every read is full, so the
position advances by exactly the span-size sum and `_bytes_left` drops by the
same amount; the backing buffer is untouched. -/
theorem tileFold_consumption :
    ∀ (L : List (Nat × Nat)) (B : List Nat) (r : Reader),
      r.pos + (L.map Prod.snd).sum ≤ r.data.length →
      (L.foldl tileStep (B, r)).2.pos = r.pos + (L.map Prod.snd).sum ∧
      (L.foldl tileStep (B, r)).2.data = r.data ∧
      (L.foldl tileStep (B, r)).2.bytesLeft =
        r.bytesLeft - (((L.map Prod.snd).sum : Nat) : Int) := by
  intro L
  induction L with
  | nil =>
    intro B r h
    refine ⟨by simp, rfl, by simp⟩
  | cons sp L ih =>
    intro B r h
    have hsum : ((sp :: L).map Prod.snd).sum = sp.2 + (L.map Prod.snd).sum := by
      simp
    have hnneg : ¬ ((sp.2 : Int) < 0) := by omega
    have hout_len : ((r.read (sp.2 : Int)).1).length = sp.2 := by
      simp only [Reader.read, if_neg hnneg, Int.toNat_natCast]
      simp
      omega
    have hpos2 : (r.read (sp.2 : Int)).2.pos = r.pos + sp.2 := by
      simp only [Reader.read]
      rw [if_neg hnneg]
      simp only [Int.toNat_natCast]
      have : ((r.data.drop r.pos).take sp.2).length = sp.2 := by
        simp
        omega
      simp [this]
    have hdata2 : (r.read (sp.2 : Int)).2.data = r.data := rfl
    have hleft2 : (r.read (sp.2 : Int)).2.bytesLeft =
        r.bytesLeft - (sp.2 : Int) := rfl
    have hstep : (sp :: L).foldl tileStep (B, r) =
        L.foldl tileStep (writeSlice B sp.1 sp.2 ((r.read (sp.2 : Int)).1),
          (r.read (sp.2 : Int)).2) := by
      rw [List.foldl_cons]
      rfl
    rw [hstep]
    have hrec := ih (writeSlice B sp.1 sp.2 ((r.read (sp.2 : Int)).1))
      ((r.read (sp.2 : Int)).2)
      (by rw [hdata2, hpos2]; omega)
    obtain ⟨h1, h2, h3⟩ := hrec
    refine ⟨?_, by rw [h2, hdata2], ?_⟩
    · rw [h1, hpos2, hsum]
      omega
    · rw [h3, hleft2, hsum]
      push_cast
      ring

/-- C4 counterexample: the tiled block reader consumes
`width * height * bytesPerPixel` bytes, not `payloadSize - 5`, and a
shortfall does not raise.  First part: a kind-27 chunk declaring
`payloadSize = 10` for a 1x1 image with one-byte pixels consumes 1 byte, not
`10 - 5 = 5`.  Second part: a digest-validated body holding a kind-27 chunk
`payloadSize = 7`, format 2, 1x1, whose two pixel bytes are missing entirely,
still decodes to one image instead of raising `TruncatedInput`. -/
theorem tiled_consumption_counterexample :
    (readTiledR 1 1 1 (10 - 5) (Reader.ofBytes [9, 9, 9, 9, 9])).2.pos = 1 ∧
    (1 : Nat) ≠ 10 - 5 ∧
    (processChunks pil0 11 (Reader.ofBytes [27, 7, 0, 0, 0, 2, 1, 0, 1, 0]) []).map
      (fun l => l.length) = Except.ok 1 := by
  refine ⟨rfl, by decide, rfl⟩

/-- C4 amended: for a tiled image chunk the block reader consumes exactly
`width * height * bytesPerPixel(pixelFormat)` bytes from the cursor whenever
that many bytes remain (`payloadSize` only sizes the output buffer and equals
`5 + width * height * bytesPerPixel` on well-formed chunks); `_bytes_left`
drops by the same amount, and a shortfall yields silent short reads, not an
exception. -/
theorem tiled_reader_consumes_pixel_bytes (width height bpp bufLen : Nat)
    (r : Reader) (h : r.pos + width * height * bpp ≤ r.data.length) :
    (readTiledR width height bpp bufLen r).2.pos =
      r.pos + width * height * bpp ∧
    (readTiledR width height bpp bufLen r).2.bytesLeft =
      r.bytesLeft - ((width * height * bpp : Nat) : Int) := by
  have hcons := tileFold_consumption (tileSpans width height bpp)
    (List.replicate bufLen 0) r (by rw [tileSpans_sum]; omega)
  obtain ⟨h1, h2, h3⟩ := hcons
  rw [tileSpans_sum] at h1 h3
  exact ⟨h1, h3⟩

/-- Witness for the amended C4 theorem on a 1x2 two-byte-pixel tile read. -/
theorem tiled_reader_consumes_pixel_bytes_witness :
    (Reader.ofBytes [1, 2, 3, 4, 5]).pos + 1 * 2 * 2 ≤
      (Reader.ofBytes [1, 2, 3, 4, 5]).data.length ∧
    (readTiledR 1 2 2 4 (Reader.ofBytes [1, 2, 3, 4, 5])).2.pos =
      (Reader.ofBytes [1, 2, 3, 4, 5]).pos + 1 * 2 * 2 ∧
    (readTiledR 1 2 2 4 (Reader.ofBytes [1, 2, 3, 4, 5])).2.bytesLeft =
      (Reader.ofBytes [1, 2, 3, 4, 5]).bytesLeft - ((1 * 2 * 2 : Nat) : Int) := by
  have h := tiled_reader_consumes_pixel_bytes 1 2 2 4
    (Reader.ofBytes [1, 2, 3, 4, 5]) (by decide)
  exact ⟨by decide, h.1, h.2⟩

end Sc
